import Mathlib

/-!
Shallow embedding of the `xmlbuilder` streaming XML builder.

The repository holds several historical variants of the same builder.  The
claims cite two of them:

* the order-preserving variant (the second document of
  `src/unnamed/part_003`): attribute names are kept in a separate insertion
  order list `attrnames` next to the map `attributes`, `inline` is an integer
  counter, `Blank` is a sentinel value, `empty` selects the empty-element
  style, and there is no `pretty` flag.  This is embedded in namespace `XB`.
* `src/builder.go`: attributes are a bare map, `inline` is a boolean set by
  `Tag`, and a `pretty` flag exists.  This is embedded in namespace `GB`.

Go specifics captured by the embedding:

* `fmt.Sprint` of a `string` is the string itself, and of the `Blank`
  sentinel is `""` (its `String()` method).  Argument values of type
  `interface\x7b\x7d` are modelled by `AttrVal`.
* a Go slice used as a stack appends at the end and reads the last entry;
  the embedding keeps the stack top at the HEAD of a `List`.
* a Go map read of a missing key yields the zero value `""`; the map is
  modelled as an association list with `List.lookup`, updated in place by
  `upsert`.
* `strings.Repeat(u, n)` panics for `n < 0`; an out-of-range slice index
  panics; both abort the operation.  Every operation therefore returns
  `String × Option State`: the bytes actually written to the sink before a
  potential panic, and `none` when the operation panics.  Writes that Go
  buffers locally (the `bytes.Buffer` in `outputElement`) reach the sink
  only on success, and arguments of `fmt.Fprint` are evaluated before any
  byte is written, so a panicking call contributes no bytes of its own.
* `strings.NewReplacer` with the single-character patterns of `htmlEscaper`
  / `attrEscaper` is a left-to-right single pass, i.e. a per-character map.
-/

/-- A Go `interface\x7b\x7d` value passed as an element/attribute argument:
either an ordinary value rendered by `fmt.Sprint` as a string, or the
`Blank` sentinel (`src/unnamed/part_003` line 306-312) whose `String()`
method returns `""`. -/
inductive AttrVal where
  | str (s : String)
  | blank
  deriving DecidableEq, Repr

/-- `fmt.Sprint` of an argument value. -/
def AttrVal.toStr : AttrVal → String
  | .str s => s
  | .blank => ""

/-- Escaping of one character by `htmlEscaper` (text position):
`&`, `<`, `>` only. -/
def escHtmlChar (c : Char) : String :=
  if c = '&' then "&amp;"
  else if c = '<' then "&lt;"
  else if c = '>' then "&gt;"
  else String.singleton c

/-- Escaping of one character by `attrEscaper` (attribute position):
`&`, `<`, `>` and `"`. -/
def escAttrChar (c : Char) : String :=
  if c = '&' then "&amp;"
  else if c = '<' then "&lt;"
  else if c = '>' then "&gt;"
  else if c = '"' then "&#34;"
  else String.singleton c

/-- `htmlEscaper.Replace`. -/
def htmlEscape (s : String) : String :=
  String.join (s.data.map escHtmlChar)

/-- `attrEscaper.Replace`. -/
def attrEscape (s : String) : String :=
  String.join (s.data.map escAttrChar)

/-- `strings.Repeat u n` for `n ≥ 0`: `n` copies of `u` concatenated. -/
def repeatStr (u : String) : Nat → String
  | 0 => ""
  | n + 1 => u ++ repeatStr u n

namespace XB

/-- Builder state of the order-preserving variant
(`src/unnamed/part_003`, second document).  The `writer` sink is not part
of the state: operations return the bytes they append. -/
structure B where
  buildingElement : Bool
  attributes : List (String × String)
  attrnames : List String
  elements : List String
  indentString : String
  indent : String
  offset : Int
  empty : Bool
  inline : Int
  deriving DecidableEq, Repr

/-- `New`: default configuration (two-space indent, empty elements on). -/
def initB : B :=
  { buildingElement := false, attributes := [], attrnames := []
    elements := [], indentString := "", indent := "  "
    offset := 0, empty := true, inline := 0 }

/-- Result of one builder operation: bytes written to the sink, and the new
state, or `none` when the Go code panics (the bytes are those written
before the panic). -/
abbrev Res := String × Option B

/-- Sequencing of two operations, aborting on panic but keeping the bytes
already written. -/
def andThen (r : Res) (f : B → Res) : Res :=
  match r with
  | (o, none) => (o, none)
  | (o, some s) => ((o ++ (f s).1 : String), (f s).2)

/-- Go map write `m[k] = v` on the association-list model. -/
def upsert (k v : String) : List (String × String) → List (String × String)
  | [] => [(k, v)]
  | (a, b) :: t => if a = k then (k, v) :: t else (a, b) :: upsert k v t

/-- `Attr` (part_003 lines 405-412): append the name to `attrnames` on
first sight, then write the map. -/
def attrStep (name value : String) (s : B) : B :=
  { s with
    attrnames := if (s.attributes.lookup name).isSome then s.attrnames
                 else s.attrnames ++ [name]
    attributes := upsert name value s.attributes }

/-- `doIndent` (part_003 lines 509-515).  `indentValue` may be negative;
`strings.Repeat` with a negative count panics (`none`).  The cached
`indentString` is reused whenever its length matches
`len(indent) * indentValue`. -/
def doIndent (s : B) : Option (String × B) :=
  let iv : Int := s.elements.length + s.offset - 1
  if (s.indentString.length : Int) = (s.indent.length : Int) * iv then
    some (s.indentString, s)
  else if iv < 0 then none
  else
    let str := repeatStr s.indent iv.toNat
    some (str, { s with indentString := str })

/-- The attribute section written by `outputElement` (part_003 lines
539-546): every name in `attrnames`, in order, with the map value
(no emptiness filter in this variant). -/
def attrSection (names : List String) (m : List (String × String)) : String :=
  String.join (names.map fun k =>
    " " ++ k ++ "=\x22" ++ attrEscape ((m.lookup k).getD "") ++ "\x22")

/-- `outputElement` (part_003 lines 531-565): flush the pending start tag.
The tag is assembled in a local buffer, so a panic (negative indent,
empty stack) writes nothing to the sink. -/
def outputElement (close : Bool) (s : B) : Res :=
  if s.buildingElement then
    match (if s.inline = 0 then doIndent s else some ("", s)) with
    | none => ("", none)
    | some (ind, s1) =>
      match s1.elements with
      | [] => ("", none)
      | name :: restElems =>
        let attrs := attrSection s1.attrnames s1.attributes
        let closeStr := if close then (if s1.empty then " />" else ">") else ">"
        let nl := if s1.inline = 0 then "\n" else ""
        (ind ++ "<" ++ name ++ attrs ++ closeStr ++ nl,
         some { s1 with
                attributes := [], attrnames := []
                elements := if close then restElems else s1.elements
                buildingElement := false })
  else ("", some s)

/-- One attribute binding supplied to a pending element: a key/value pair
inside `Element`'s variadic arguments, or a direct `Attr` call (whose key
parameter is already a `string`). -/
inductive Binding where
  | viaElement (k v : AttrVal)
  | viaAttr (k : String) (v : AttrVal)
  deriving DecidableEq, Repr

/-- Apply one binding the way the source does: `Element`'s argument loop
(part_003 lines 370-374) keeps a pair only when the key is nonempty and the
value is nonempty or the `Blank` sentinel; `Attr` (lines 405-412) is
unconditional. -/
def applyBinding (s : B) : Binding → B
  | .viaElement k v =>
    if k.toStr ≠ "" ∧ (v.toStr ≠ "" ∨ v = .blank) then attrStep k.toStr v.toStr s
    else s
  | .viaAttr k v => attrStep k v.toStr s

/-- `Element`'s attribute loop over the key/value part of `args`. -/
def applyPairs : List AttrVal → B → B
  | k :: v :: rest, s => applyPairs rest (applyBinding s (.viaElement k v))
  | _, s => s

/-- `Chars` (part_003 lines 473-482), after `fmt.Sprint` has joined the
arguments into `line`. -/
def charsStep (line : String) (s : B) : Res :=
  andThen (outputElement false s) fun s1 =>
    if s1.inline > 0 then (htmlEscape line, some s1)
    else
      match doIndent s1 with
      | none => ("", none)
      | some (ind, s2) => (ind ++ s2.indent ++ htmlEscape line ++ "\n", some s2)

/-- `CharsNoEscape` (part_003 lines 485-494). -/
def charsNoEscapeStep (line : String) (s : B) : Res :=
  andThen (outputElement false s) fun s1 =>
    if s1.inline > 0 then (line, some s1)
    else
      match doIndent s1 with
      | none => ("", none)
      | some (ind, s2) => (ind ++ s2.indent ++ line ++ "\n", some s2)

/-- `Cdata` (part_003 lines 498-507). -/
def cdataStep (line : String) (s : B) : Res :=
  andThen (outputElement false s) fun s1 =>
    if s1.inline > 0 then ("<![CDATA[" ++ line ++ "]]>", some s1)
    else
      match doIndent s1 with
      | none => ("", none)
      | some (ind, s2) =>
        (ind ++ s2.indent ++ "<![CDATA[" ++ line ++ "]]>\n", some s2)

/-- `Element` (part_003 lines 362-380): flush any pending element, push the
name, consume the key/value pairs (starting at index `len(args) % 2`), and
when the argument count is odd emit `args[0]` through `Chars`. -/
def elementStep (name : String) (args : List AttrVal) (s : B) : Res :=
  andThen (if s.buildingElement then outputElement false s else ("", some s))
    fun s1 =>
      let s2 := { s1 with buildingElement := true, elements := name :: s1.elements }
      if args.length % 2 = 1 then
        charsStep ((args.headD (.str "")).toStr) (applyPairs (args.drop 1) s2)
      else ("", some (applyPairs args s2))

/-- `Attr` as a user operation: writes nothing. -/
def attrOp (name : String) (value : AttrVal) (s : B) : Res :=
  ("", some (applyBinding s (.viaAttr name value)))

/-- `End` (part_003 lines 415-427).  With an empty stack the slice index
`b.elements[len(b.elements)-1]` is out of range and Go panics; the
`fmt.Fprint` arguments are evaluated before the write, so nothing reaches
the sink. -/
def endStep (s : B) : Res :=
  if s.buildingElement then outputElement true s
  else if s.inline > 0 then
    match s.elements with
    | [] => ("", none)
    | name :: rest => ("</" ++ name ++ ">", some { s with elements := rest })
  else
    match doIndent s with
    | none => ("", none)
    | some (ind, s1) =>
      match s1.elements with
      | [] => ("", none)
      | name :: rest =>
        (ind ++ "</" ++ name ++ ">\n", some { s1 with elements := rest })

/-- `Inline` (part_003 lines 342-351): on the 0→1 transition flush the
pending element, then write one indentation prefix computed with the
offset temporarily raised by one. -/
def inlineStep (s : B) : Res :=
  if s.inline = 0 then
    andThen (outputElement false s) fun s1 =>
      match doIndent { s1 with offset := s1.offset + 1 } with
      | none => ("", none)
      | some (ind, s2) =>
        (ind, some { s2 with offset := s2.offset - 1, inline := s2.inline + 1 })
  else ("", some { s with inline := s.inline + 1 })

/-- `EndInline` (part_003 lines 353-359): decrement, and write one newline
on the 1→0 transition. -/
def endInlineStep (s : B) : Res :=
  let s1 : B := { s with inline := s.inline - 1 }
  if s1.inline = 0 then ("\n", some s1) else ("", some s1)

/-- `Tag` (part_003 lines 430-435): `Inline(); Element(...).End(); EndInline()`. -/
def tagStep (name : String) (args : List AttrVal) (s : B) : Res :=
  andThen (inlineStep s) fun s1 =>
    andThen (elementStep name args s1) fun s2 =>
      andThen (endStep s2) endInlineStep

/-- The pair loop of `Instruct` (part_003 lines 448-450): bytes written and
whether the loop completes.  An odd argument list makes `args[i+1]` go out
of range on the last iteration, before that pair is written. -/
def instrPairs : List AttrVal → String × Bool
  | [] => ("", true)
  | [_] => ("", false)
  | k :: v :: rest =>
    (" " ++ k.toStr ++ "=\x22" ++ attrEscape v.toStr ++ "\x22" ++ (instrPairs rest).1,
     (instrPairs rest).2)

/-- `Instruct` (part_003 lines 446-453). -/
def instructStep (name : String) (args : List AttrVal) (s : B) : Res :=
  match instrPairs args with
  | (p, true) => ("<?" ++ name ++ p ++ "?>\n", some s)
  | (p, false) => ("<?" ++ name ++ p, none)

/-- `Doctype` (part_003 lines 461-464). -/
def doctypeStep (d : String) (s : B) : Res :=
  ("<!DOCTYPE " ++ d ++ ">\n", some s)

/-- `Offset` (part_003 lines 467-470): adds the delta. -/
def offsetSet (delta : Int) (s : B) : B :=
  { s with offset := s.offset + delta }

/-- `Indent` (part_003 lines 518-521). -/
def indentSet (u : String) (s : B) : B :=
  { s with indent := u }

/-- `Empty` (part_003 lines 526-529). -/
def emptySet (e : Bool) (s : B) : B :=
  { s with empty := e }

/-- `Flush` (part_003 lines 568-571). -/
def flushStep (s : B) : Res :=
  outputElement false s

/-- A builder API call of the order-preserving variant. -/
inductive Cmd where
  | element (name : String) (args : List AttrVal)
  | attr (name : String) (value : AttrVal)
  | endEl
  | tag (name : String) (args : List AttrVal)
  | chars (line : String)
  | charsNoEscape (line : String)
  | cdata (line : String)
  | instruct (name : String) (args : List AttrVal)
  | doctype (d : String)
  | offset (delta : Int)
  | indent (u : String)
  | empty (e : Bool)
  | flush
  | inl
  | endInl
  deriving DecidableEq, Repr

/-- Commands that enter or leave an inline region. -/
def Cmd.isInlineCmd : Cmd → Bool
  | .inl => true
  | .endInl => true
  | _ => false

/-- Dispatch one call. -/
def step : Cmd → B → Res
  | .element n a => elementStep n a
  | .attr n v => attrOp n v
  | .endEl => endStep
  | .tag n a => tagStep n a
  | .chars l => charsStep l
  | .charsNoEscape l => charsNoEscapeStep l
  | .cdata l => cdataStep l
  | .instruct n a => instructStep n a
  | .doctype d => doctypeStep d
  | .offset d => fun s => ("", some (offsetSet d s))
  | .indent u => fun s => ("", some (indentSet u s))
  | .empty e => fun s => ("", some (emptySet e s))
  | .flush => flushStep
  | .inl => inlineStep
  | .endInl => endInlineStep

/-- Run a sequence of calls, accumulating the bytes written to the sink. -/
def runList : List Cmd → B → Res
  | [], s => ("", some s)
  | c :: cs, s => andThen (step c s) (runList cs)

end XB

namespace GB

/-- Builder state of `src/builder.go`: attributes are a bare Go map (the
association list stands for the map contents in some iteration order,
which Go leaves unspecified), `inline` is a boolean and `pretty` exists. -/
structure B where
  buildingElement : Bool
  attributes : List (String × String)
  elements : List String
  indentString : String
  indent : String
  offset : Int
  inline : Bool
  pretty : Bool
  deriving DecidableEq, Repr

/-- `New` (builder.go lines 54-61). -/
def initB : B :=
  { buildingElement := false, attributes := [], elements := []
    indentString := "", indent := "  ", offset := 0
    inline := false, pretty := true }

abbrev Res := String × Option B

/-- `doIndent` (builder.go lines 176-185): returns `""` when pretty
printing is off, otherwise as in the other variant (panicking on a
negative count). -/
def doIndent (s : B) : Option (String × B) :=
  if s.pretty = false then some ("", s)
  else
    let iv : Int := s.elements.length + s.offset - 1
    if (s.indentString.length : Int) = (s.indent.length : Int) * iv then
      some (s.indentString, s)
    else if iv < 0 then none
    else
      let str := repeatStr s.indent iv.toNat
      some (str, { s with indentString := str })

/-- The attribute loop of `outputElement` (builder.go lines 199-207): one
entry per map pair, written only when both the key and the value are
nonempty. -/
def attrLoop : List (String × String) → String
  | [] => ""
  | (k, v) :: t =>
    (if k ≠ "" ∧ v ≠ "" then " " ++ k ++ "=\x22" ++ attrEscape v ++ "\x22" else "")
      ++ attrLoop t

/-- `outputElement` (builder.go lines 193-221). -/
def outputElement (close newline : Bool) (s : B) : Res :=
  if s.buildingElement then
    match doIndent s with
    | none => ("", none)
    | some (ind, s1) =>
      match s1.elements with
      | [] => ("", none)
      | name :: restElems =>
        (ind ++ "<" ++ name ++ attrLoop s1.attributes
           ++ (if close then " />" else ">") ++ (if newline then "\n" else ""),
         some { s1 with
                attributes := []
                elements := if close then restElems else s1.elements
                buildingElement := false })
  else ("", some s)

/-- `Attr` (builder.go lines 83-86): unconditional map write. -/
def attrStep (name value : String) (s : B) : B :=
  { s with attributes := XB.upsert name value s.attributes }

/-- `End` (builder.go lines 89-105).  The `newline` local of the source is
inlined: `"\n"` when pretty printing is on, `""` otherwise. -/
def endStep (s : B) : Res :=
  if s.buildingElement then outputElement true s.pretty s
  else if s.inline then
    match s.elements with
    | [] => ("", none)
    | name :: rest =>
      ("</" ++ name ++ ">" ++ (if s.pretty then "\n" else ""),
       some { s with elements := rest })
  else
    match doIndent s with
    | none => ("", none)
    | some (ind, s1) =>
      match s1.elements with
      | [] => ("", none)
      | name :: rest =>
        (ind ++ "</" ++ name ++ ">" ++ (if s.pretty then "\n" else ""),
         some { s1 with elements := rest })

/-- `Chars` (builder.go lines 143-152). -/
def charsStep (line : String) (s : B) : Res :=
  match outputElement false (s.pretty ∧ s.inline = false) s with
  | (o, none) => (o, none)
  | (o, some s1) =>
    if s1.inline ∨ s1.pretty = false then (o ++ htmlEscape line, some s1)
    else
      match doIndent s1 with
      | none => (o, none)
      | some (ind, s2) =>
        (o ++ ind ++ s2.indent ++ htmlEscape line ++ "\n", some s2)

/-- `Pretty` (builder.go lines 224-227). -/
def prettySet (p : Bool) (s : B) : B :=
  { s with pretty := p }

/-- `Offset` (builder.go lines 137-140). -/
def offsetSet (delta : Int) (s : B) : B :=
  { s with offset := s.offset + delta }

end GB

namespace XB

theorem andThen_pure (r : Res) : andThen r (fun s => (("" : String), some s)) = r := by
  obtain ⟨o, s?⟩ := r
  cases s? <;> simp [andThen, String.append_empty]

theorem doIndent_elements (s : B) (r : String) (s' : B)
    (h : doIndent s = some (r, s')) : s'.elements = s.elements := by
  simp only [doIndent] at h
  split at h
  · simp_all
  · split at h
    · simp_all
    · simp only [Option.some.injEq, Prod.mk.injEq] at h
      cases h.2
      rfl

end XB

namespace GB

theorem doIndentElementsGB (s : B) (r : String) (s' : B)
    (h : doIndent s = some (r, s')) : s'.elements = s.elements := by
  simp only [doIndent] at h
  split at h
  · simp_all
  · split at h
    · simp_all
    · split at h
      · simp_all
      · simp only [Option.some.injEq, Prod.mk.injEq] at h
        cases h.2
        rfl

end GB

/-- C8: `Tag(name, args...)` writes exactly the same bytes and reaches
exactly the same final state as the call sequence
`Inline(); Element(name, args...); End(); EndInline()` from the same
starting state — the composite only delegates (part_003 lines 430-435). -/
theorem c8_tag_delegates (name : String) (args : List AttrVal) (s : XB.B) :
    XB.tagStep name args s
      = XB.runList [.inl, .element name args, .endEl, .endInl] s := by
  simp [XB.tagStep, XB.runList, XB.step, XB.andThen_pure]

/-- C2: calling `End` with an empty open-element stack never silently
writes output: in both cited variants (part_003 lines 415-427 and
builder.go lines 89-105) the out-of-range slice index
`b.elements[len(b.elements)-1]` (or, before it, `strings.Repeat` with a
negative count inside `doIndent`) raises a Go runtime panic — modelled as
`none` — and the `fmt.Fprint` arguments are evaluated before any write, so
the sink receives no bytes at all. -/
theorem c2_end_empty_stack (s : XB.B) (gs : GB.B)
    (h : s.elements = []) (hg : gs.elements = []) :
    XB.endStep s = ("", none) ∧ GB.endStep gs = ("", none) := by
  constructor
  · unfold XB.endStep
    split
    · unfold XB.outputElement
      split
      · rcases hd : (if s.inline = 0 then XB.doIndent s else some ("", s)) with _ | ⟨r, s1⟩
        · simp [hd]
        · have he : s1.elements = [] := by
            split at hd
            · rw [XB.doIndent_elements s r s1 hd, h]
            · simp only [Option.some.injEq, Prod.mk.injEq] at hd
              rw [← hd.2, h]
          simp [hd, he]
      · simp_all
    · split
      · simp [h]
      · rcases hd : XB.doIndent s with _ | ⟨r, s1⟩
        · simp [hd]
        · have he : s1.elements = [] := by
            rw [XB.doIndent_elements s r s1 hd, h]
          simp [hd, he]
  · unfold GB.endStep
    split
    · unfold GB.outputElement
      split
      · rcases hd : GB.doIndent gs with _ | ⟨r, s1⟩
        · simp [hd]
        · have he : s1.elements = [] := by
            rw [GB.doIndentElementsGB gs r s1 hd, hg]
          simp [hd, he]
      · simp_all
    · split
      · simp [hg]
      · rcases hd : GB.doIndent gs with _ | ⟨r, s1⟩
        · simp [hd]
        · have he : s1.elements = [] := by
            rw [GB.doIndentElementsGB gs r s1 hd, hg]
          simp [hd, he]

/-- Witness for C2 at the freshly constructed builders of both variants. -/
theorem c2_end_empty_stack_witness :
    XB.endStep XB.initB = ("", none) ∧ GB.endStep GB.initB = ("", none) :=
  c2_end_empty_stack XB.initB GB.initB rfl rfl

namespace XB

theorem andThen_assoc (r : Res) (f g : B → Res) :
    andThen (andThen r f) g = andThen r (fun s => andThen (f s) g) := by
  obtain ⟨o, s?⟩ := r
  cases s? with
  | none => rfl
  | some s =>
    simp only [andThen]
    rcases hf : f s with ⟨o2, s2?⟩
    cases s2? <;> simp [andThen, hf, String.append_assoc]

theorem andThen_id_left (x : B) (g : B → Res) :
    andThen (("" : String), some x) g = g x := by
  simp [andThen, String.empty_append]

end XB

/-- C4 counterexample: `Attr` with no pending element is NOT a no-op.  On a
fresh builder it changes the builder state, and it changes the attributes
of the next element opened with `Element`: with a preceding
`Attr("age","40")` the scenario of `TestAttr` (builder_test.go lines
92-99) emits `<person age="40" name="Joran" />`, without it the same
calls emit `<person name="Joran" />`. -/
theorem c4_counterexample :
    XB.applyBinding XB.initB (.viaAttr "age" (.str "40")) ≠ XB.initB
    ∧ (XB.runList [.attr "age" (.str "40"),
        .element "person" [.str "name", .str "Joran"], .endEl] XB.initB).1
      = "<person age=\x22" ++ "40\x22 name=\x22Joran\x22 />\n"
    ∧ (XB.runList [.element "person" [.str "name", .str "Joran"], .endEl]
        XB.initB).1
      = "<person name=\x22Joran\x22 />\n"
    ∧ (XB.runList [.attr "age" (.str "40"),
        .element "person" [.str "name", .str "Joran"], .endEl] XB.initB).1
      ≠ (XB.runList [.element "person" [.str "name", .str "Joran"], .endEl]
          XB.initB).1 := by
  refine ⟨by decide, by decide, by decide, by decide⟩

/-- C4 amended: `Attr(name, value)` with no element pending writes nothing
to the sink but is not a no-op: it records the binding in the attribute
buffer (`attrStep`), and a following `Element` call inherits that buffer
unchanged, so the recorded attributes surface on the next element —
exactly what the source doc comment ("when not building an element it will
add attributes to the next element to be build", part_003 lines 403-404)
and `TestAttr` state. -/
theorem c4_amended (k : String) (v : AttrVal) (name : String) (s : XB.B)
    (h : s.buildingElement = false) :
    XB.attrOp k v s = ("", some (XB.attrStep k v.toStr s))
    ∧ XB.elementStep name [] s
      = ("", some { s with buildingElement := true, elements := name :: s.elements })
    ∧ (XB.runList [.attr "age" (.str "40"),
        .element "person" [.str "name", .str "Joran"], .endEl] XB.initB).1
      = "<person age=\x22" ++ "40\x22 name=\x22Joran\x22 />\n" := by
  refine ⟨rfl, ?_, by decide⟩
  simp [XB.elementStep, XB.andThen, XB.applyPairs, h]

/-- Witness for C4's amended theorem on a fresh builder. -/
theorem c4_amended_witness :
    XB.elementStep "person" [] XB.initB
      = ("", some { XB.initB with buildingElement := true, elements := ["person"] }) :=
  (c4_amended "age" (.str "40") "person" XB.initB rfl).2.1

/-- C6 counterexample: in `Element(name, args...)` with an odd number of
`args` the LEADING argument `args[0]` is the character content, not the
trailing one.  `Element("person", "Hello!", "name", "Joran"); End()` (the
scenario of `TestChars`, builder_test.go lines 67-72) emits `Hello!` as
text and `name="Joran"` as the attribute; under the claim's
trailing-argument reading it would emit `Joran` as text and
`Hello!="name"` as the attribute pair. -/
theorem c6_counterexample :
    (XB.runList [.element "person" [.str "Hello!", .str "name", .str "Joran"],
        .endEl] XB.initB).1
      = "<person name=\x22Joran\x22>\n  Hello!\n</person>\n"
    ∧ (XB.runList [.element "person" [.str "Hello!", .str "name", .str "Joran"],
        .endEl] XB.initB).1
      ≠ "<person Hello!=\x22name\x22>\n  Joran\n</person>\n" := by
  refine ⟨by decide, by decide⟩

/-- C6 amended: for every call `Element(name, args...)` with an odd number
of arguments, the LEADING argument `args[0]` is treated as immediate
character content of the new element — emitted through the very `Chars`
call (escaping included) after the remaining arguments (from index 1) have
been consumed as attribute key/value pairs.  Formally, `Element` with the
odd leading value equals `Element` on the even remainder followed by
`Chars` of that value (part_003 lines 369-377). -/
theorem c6_amended (name : String) (v : AttrVal) (rest : List AttrVal)
    (s : XB.B) (h : rest.length % 2 = 0) :
    XB.elementStep name (v :: rest) s
      = XB.andThen (XB.elementStep name rest s) (XB.charsStep v.toStr) := by
  have h1 : (rest.length + 1) % 2 = 1 := by omega
  simp [XB.elementStep, h1, h, XB.andThen_assoc, XB.andThen_id_left]

/-- Witness for C6's amended theorem: the `TestChars` scenario. -/
theorem c6_amended_witness :
    XB.elementStep "person" [.str "Hello!", .str "name", .str "Joran"] XB.initB
      = XB.andThen (XB.elementStep "person" [.str "name", .str "Joran"] XB.initB)
          (XB.charsStep "Hello!") :=
  c6_amended "person" (.str "Hello!") [.str "name", .str "Joran"] XB.initB rfl

/-- C9 counterexample: `Offset` is not an idempotent setter.  Calling
`Offset(1)` twice on a fresh builder leaves `offset = 2`, not `1`, and the
subsequent output is indented two extra levels instead of one. -/
theorem c9_counterexample :
    XB.offsetSet 1 (XB.offsetSet 1 XB.initB) ≠ XB.offsetSet 1 XB.initB
    ∧ (XB.runList [.offset 1, .offset 1, .element "a" [], .endEl] XB.initB).1
      = "    <a />\n"
    ∧ (XB.runList [.offset 1, .element "a" [], .endEl] XB.initB).1
      = "  <a />\n"
    ∧ (XB.runList [.offset 1, .offset 1, .element "a" [], .endEl] XB.initB).1
      ≠ (XB.runList [.offset 1, .element "a" [], .endEl] XB.initB).1 := by
  refine ⟨by decide, by decide, by decide, by decide⟩

/-- C9 amended: `Indent`, `Empty` (part_003 lines 518-529) and `Pretty`
(builder.go lines 224-227) are idempotent setters, and none of the four
configuration mutators writes any byte to the sink (so already-written
output is unaffected and the new configuration only shows on subsequent
output).  `Offset` however (part_003 lines 467-470, builder.go lines
137-140) ADDS its delta — calling it twice with the same nonzero delta
yields a different state (offset shifted by `2*delta`) than calling it
once, so it is not an idempotent setter. -/
theorem c9_amended (d : Int) (u : String) (e p : Bool) (s : XB.B) (gs : GB.B)
    (hd : d ≠ 0) :
    XB.indentSet u (XB.indentSet u s) = XB.indentSet u s
    ∧ XB.emptySet e (XB.emptySet e s) = XB.emptySet e s
    ∧ GB.prettySet p (GB.prettySet p gs) = GB.prettySet p gs
    ∧ XB.offsetSet d (XB.offsetSet d s) = { s with offset := s.offset + d + d }
    ∧ XB.offsetSet d (XB.offsetSet d s) ≠ XB.offsetSet d s
    ∧ XB.step (.offset d) s = ("", some (XB.offsetSet d s))
    ∧ XB.step (.indent u) s = ("", some (XB.indentSet u s))
    ∧ XB.step (.empty e) s = ("", some (XB.emptySet e s)) := by
  refine ⟨rfl, rfl, rfl, rfl, ?_, rfl, rfl, rfl⟩
  intro hcontra
  have h2 := congrArg XB.B.offset hcontra
  simp only [XB.offsetSet] at h2
  omega

/-- Witness for C9's amended theorem at `delta = 1` on fresh builders. -/
theorem c9_amended_witness :
    XB.indentSet " " (XB.indentSet " " XB.initB) = XB.indentSet " " XB.initB
    ∧ XB.offsetSet 1 (XB.offsetSet 1 XB.initB) ≠ XB.offsetSet 1 XB.initB :=
  ⟨(c9_amended 1 " " true false XB.initB GB.initB (by decide)).1,
   (c9_amended 1 " " true false XB.initB GB.initB (by decide)).2.2.2.2.1⟩

/-- C10: empty-attribute handling.  In the map-based variant
(builder.go `outputElement`, lines 199-207) every map pair whose key or
value is the empty string is silently omitted from the emitted tag —
regardless of where it sits in the (unspecified) map iteration order.  In
the order-preserving variant (part_003) the filter sits in `Element`'s
argument loop instead: a pair whose value renders to `""` is kept (as an
explicit empty attribute) exactly when the value is the `Blank` sentinel
and dropped otherwise, while direct `Attr` calls bypass the filter
entirely and are rendered at flush even with an empty value. -/
theorem c10_empty_attribute_filter (k : String) (v : String)
    (s : XB.B) (hk : k ≠ "") :
    (∀ k0 v0 (l0 : List (String × String)), (k0 = "" ∨ v0 = "") →
      GB.attrLoop ((k0, v0) :: l0) = GB.attrLoop l0)
    ∧ XB.applyBinding s (.viaElement (.str k) .blank) = XB.attrStep k "" s
    ∧ (∀ k1 : String, XB.applyBinding s (.viaElement (.str k1) (.str "")) = s)
    ∧ XB.applyBinding s (.viaAttr k (.str v)) = XB.attrStep k v s
    ∧ XB.attrSection [k] [(k, "")] = " " ++ k ++ "=\x22\x22" := by
  refine ⟨?_, ?_, ?_, rfl, ?_⟩
  · intro k0 v0 l0 h0
    rcases h0 with h0 | h0 <;> simp [GB.attrLoop, h0, String.empty_append]
  · simp [XB.applyBinding, AttrVal.toStr, hk]
  · intro k1
    simp [XB.applyBinding, AttrVal.toStr]
  · simp [XB.attrSection, attrEscape, String.join, String.empty_append,
      String.append_empty, String.append_assoc]

namespace XB

/-- Spec-side: the bindings that survive `Element`'s argument filter
(part_003 line 371); `Attr` calls always survive.  Rendered as the
key/value strings actually handed to `Attr`. -/
def effective : List Binding → List (String × String)
  | [] => []
  | .viaElement k v :: rest =>
    if k.toStr ≠ "" ∧ (v.toStr ≠ "" ∨ v = .blank) then
      (k.toStr, v.toStr) :: effective rest
    else effective rest
  | .viaAttr k v :: rest => (k, v.toStr) :: effective rest

/-- Spec-side "first occurrence wins position": each key of the supplied
pairs, in order of first occurrence. -/
def firstOrderAux (acc : List String) (l : List (String × String)) : List String :=
  l.foldl (fun a p => if p.1 ∈ a then a else a ++ [p.1]) acc

/-- First-occurrence key order of a binding list. -/
def firstOrder (l : List (String × String)) : List String :=
  firstOrderAux [] l

/-- Spec-side "last occurrence wins value": the value of the last pair with
the given key, if any. -/
def lastVal (l : List (String × String)) (key : String) : Option String :=
  l.foldl (fun acc p => if p.1 = key then some p.2 else acc) none

/-- Claim-side raw reading of a binding, ignoring `Element`'s filter. -/
def rawPair : Binding → String × String
  | .viaElement k v => (k.toStr, v.toStr)
  | .viaAttr k v => (k, v.toStr)

/-- The attribute section the claim as stated predicts for a binding list:
every supplied name exactly once, first occurrence deciding position, last
occurrence deciding value, with no filtering. -/
def claimSection (bs : List Binding) : String :=
  String.join ((firstOrder (bs.map rawPair)).map fun key =>
    " " ++ key ++ "=\x22"
      ++ attrEscape ((lastVal (bs.map rawPair) key).getD "") ++ "\x22")

theorem lookup_upsert (k v key : String) (m : List (String × String)) :
    (upsert k v m).lookup key = if key = k then some v else m.lookup key := by
  induction m with
  | nil =>
    by_cases h : key = k
    · simp [upsert, List.lookup, beq_iff_eq.mpr h, h]
    · simp [upsert, List.lookup, beq_eq_false_iff_ne.mpr h, h]
  | cons p t ih =>
    obtain ⟨a, b⟩ := p
    by_cases hak : a = k
    · subst hak
      by_cases h : key = a
      · simp [upsert, List.lookup, beq_iff_eq.mpr h, h]
      · simp [upsert, List.lookup, beq_eq_false_iff_ne.mpr h, h]
    · by_cases h : key = a
      · subst h
        have hkk : ¬ key = k := hak
        simp [upsert, if_neg hak, List.lookup, beq_iff_eq.mpr rfl, hkk]
      · simp [upsert, if_neg hak, List.lookup, beq_eq_false_iff_ne.mpr h, h, ih]

theorem mem_firstOrderAux (acc : List String) (l : List (String × String))
    (a : String) :
    a ∈ firstOrderAux acc l ↔ a ∈ acc ∨ ∃ v, (a, v) ∈ l := by
  induction l generalizing acc with
  | nil => simp [firstOrderAux]
  | cons p t ih =>
    obtain ⟨p1, p2⟩ := p
    simp only [firstOrderAux, List.foldl_cons]
    rw [show (List.foldl (fun a p => if p.1 ∈ a then a else a ++ [p.1])
        (if (p1, p2).1 ∈ acc then acc else acc ++ [(p1, p2).1]) t)
      = firstOrderAux (if p1 ∈ acc then acc else acc ++ [p1]) t from rfl]
    rw [ih]
    by_cases hp : p1 ∈ acc
    · simp only [if_pos hp]
      constructor
      · rintro (h | ⟨v, hv⟩)
        · exact Or.inl h
        · exact Or.inr ⟨v, List.mem_cons_of_mem _ hv⟩
      · rintro (h | ⟨v, hv⟩)
        · exact Or.inl h
        · rcases List.mem_cons.mp hv with h1 | h1
          · cases h1
            exact Or.inl hp
          · exact Or.inr ⟨v, h1⟩
    · simp only [if_neg hp]
      constructor
      · rintro (h | ⟨v, hv⟩)
        · rcases List.mem_append.mp h with h1 | h1
          · exact Or.inl h1
          · simp only [List.mem_singleton] at h1
            subst h1
            exact Or.inr ⟨p2, List.mem_cons_self _ _⟩
        · exact Or.inr ⟨v, List.mem_cons_of_mem _ hv⟩
      · rintro (h | ⟨v, hv⟩)
        · exact Or.inl (List.mem_append.mpr (Or.inl h))
        · rcases List.mem_cons.mp hv with h1 | h1
          · cases h1
            exact Or.inl (List.mem_append.mpr (Or.inr (List.mem_singleton.mpr rfl)))
          · exact Or.inr ⟨v, h1⟩

theorem lastVal_isSome (l : List (String × String)) (a : String) :
    (lastVal l a).isSome = true ↔ ∃ v, (a, v) ∈ l := by
  have haux : ∀ (acc : Option String),
      (l.foldl (fun acc p => if p.1 = a then some p.2 else acc) acc).isSome = true
        ↔ acc.isSome = true ∨ ∃ v, (a, v) ∈ l := by
    induction l with
    | nil => simp
    | cons p t ih =>
      intro acc
      obtain ⟨p1, p2⟩ := p
      simp only [List.foldl_cons]
      rw [ih]
      by_cases hp : p1 = a
      · subst hp
        simp only [if_pos rfl]
        constructor
        · rintro (h | ⟨v, hv⟩)
          · exact Or.inr ⟨p2, List.mem_cons_self _ _⟩
          · exact Or.inr ⟨v, List.mem_cons_of_mem _ hv⟩
        · intro h
          simp
      · rw [if_neg hp]
        constructor
        · rintro (h | ⟨v, hv⟩)
          · exact Or.inl h
          · exact Or.inr ⟨v, List.mem_cons_of_mem _ hv⟩
        · rintro (h | ⟨v, hv⟩)
          · exact Or.inl h
          · rcases List.mem_cons.mp hv with h1 | h1
            · cases h1
              exact absurd rfl hp
            · exact Or.inr ⟨v, h1⟩
  rw [lastVal, haux]
  simp

theorem mem_firstOrder_iff (l : List (String × String)) (a : String) :
    a ∈ firstOrder l ↔ (lastVal l a).isSome = true := by
  rw [firstOrder, mem_firstOrderAux, lastVal_isSome]
  simp

theorem firstOrderAux_nodup (acc : List String) (l : List (String × String))
    (h : acc.Nodup) : (firstOrderAux acc l).Nodup := by
  induction l generalizing acc with
  | nil => exact h
  | cons p t ih =>
    simp only [firstOrderAux, List.foldl_cons]
    by_cases hp : p.1 ∈ acc
    · rw [if_pos hp]
      exact ih acc h
    · rw [if_neg hp]
      refine ih _ ?_
      simp [List.nodup_append, h, hp]

theorem firstOrder_append_single (l : List (String × String)) (a v : String) :
    firstOrder (l ++ [(a, v)])
      = if a ∈ firstOrder l then firstOrder l else firstOrder l ++ [a] := by
  simp [firstOrder, firstOrderAux, List.foldl_append]

theorem lastVal_append_single (l : List (String × String)) (a v key : String) :
    lastVal (l ++ [(a, v)]) key = if a = key then some v else lastVal l key := by
  simp [lastVal, List.foldl_append]

theorem attrStep_inv (s : B) (p : List (String × String)) (a v : String)
    (h1 : s.attrnames = firstOrder p)
    (h2 : ∀ key, s.attributes.lookup key = lastVal p key) :
    (attrStep a v s).attrnames = firstOrder (p ++ [(a, v)])
    ∧ ∀ key, (attrStep a v s).attributes.lookup key = lastVal (p ++ [(a, v)]) key := by
  constructor
  · rw [firstOrder_append_single]
    simp only [attrStep]
    rw [h2 a, h1]
    by_cases hmem : a ∈ firstOrder p
    · rw [if_pos ((mem_firstOrder_iff p a).mp hmem), if_pos hmem]
    · rw [if_neg (fun hh => hmem ((mem_firstOrder_iff p a).mpr hh)), if_neg hmem]
  · intro key
    simp only [attrStep]
    rw [lookup_upsert, lastVal_append_single, h2 key]
    by_cases hk : key = a
    · rw [if_pos hk, if_pos hk.symm]
    · rw [if_neg hk, if_neg (fun hh => hk hh.symm)]

theorem foldBindings_inv (bs : List Binding) :
    ∀ (s : B) (p : List (String × String)),
    s.attrnames = firstOrder p →
    (∀ key, s.attributes.lookup key = lastVal p key) →
    (bs.foldl applyBinding s).attrnames = firstOrder (p ++ effective bs)
    ∧ ∀ key, (bs.foldl applyBinding s).attributes.lookup key
        = lastVal (p ++ effective bs) key := by
  induction bs with
  | nil =>
    intro s p h1 h2
    constructor
    · simpa [effective] using h1
    · intro key
      simpa [effective] using h2 key
  | cons b rest ih =>
    intro s p h1 h2
    cases b with
    | viaAttr k v =>
      have hstep := attrStep_inv s p k v.toStr h1 h2
      have hrec := ih (attrStep k v.toStr s) (p ++ [(k, v.toStr)]) hstep.1 hstep.2
      simpa [applyBinding, effective, List.append_assoc] using hrec
    | viaElement k v =>
      by_cases hcond : k.toStr ≠ "" ∧ (v.toStr ≠ "" ∨ v = .blank)
      · have hstep := attrStep_inv s p k.toStr v.toStr h1 h2
        have hrec := ih (attrStep k.toStr v.toStr s) (p ++ [(k.toStr, v.toStr)])
          hstep.1 hstep.2
        simpa [applyBinding, effective, hcond, List.append_assoc] using hrec
      · have hrec := ih s p h1 h2
        simpa [applyBinding, effective, hcond] using hrec

end XB

theorem length_pos_of_ne_empty (s : String) (h : s ≠ "") : 0 < s.length := by
  cases s with
  | mk d =>
    cases d with
    | nil => simp at h
    | cons a t => simp [String.length]

theorem repeatStr_length (u : String) (n : Nat) :
    (repeatStr u n).length = u.length * n := by
  induction n with
  | zero => simp [repeatStr]
  | succ m ih =>
    simp [repeatStr, String.length_append, ih]
    ring

theorem repeatStr_empty (n : Nat) : repeatStr "" n = "" := by
  induction n with
  | zero => rfl
  | succ m ih => simp [repeatStr, ih, String.empty_append]

theorem repeatStr_succ_right (u : String) (n : Nat) :
    repeatStr u (n + 1) = repeatStr u n ++ u := by
  induction n with
  | zero =>
    simp [repeatStr, String.empty_append, String.append_empty]
  | succ m ih =>
    calc repeatStr u (m + 2) = u ++ repeatStr u (m + 1) := rfl
      _ = u ++ (repeatStr u m ++ u) := by rw [ih]
      _ = (u ++ repeatStr u m) ++ u := (String.append_assoc u (repeatStr u m) u).symm
      _ = repeatStr u (m + 1) ++ u := rfl

namespace XB

/-- Characterisation of `doIndent` on states whose cached `indentString`
is some repetition of the current indent unit: with a nonnegative computed
count it returns exactly that many copies of the unit. -/
theorem doIndent_spec (s : B) (k : Nat)
    (hc : s.indentString = repeatStr s.indent k)
    (hnn : 0 ≤ (s.elements.length : Int) + s.offset - 1) :
    doIndent s
      = some (repeatStr s.indent ((s.elements.length : Int) + s.offset - 1).toNat,
          { s with
            indentString :=
              repeatStr s.indent ((s.elements.length : Int) + s.offset - 1).toNat }) := by
  simp only [doIndent]
  split
  · next hlen =>
    have hstr : s.indentString
        = repeatStr s.indent ((s.elements.length : Int) + s.offset - 1).toNat := by
      by_cases hu : s.indent = ""
      · rw [hc, hu, repeatStr_empty, repeatStr_empty]
      · have hul : 0 < s.indent.length := length_pos_of_ne_empty s.indent hu
        have hk : (k : Int) = (s.elements.length : Int) + s.offset - 1 := by
          have h2 : (s.indent.length : Int) * k
              = (s.indent.length : Int) * ((s.elements.length : Int) + s.offset - 1) := by
            rw [← hlen, hc, repeatStr_length]
            push_cast
            ring
          have h3 : (s.indent.length : Int) ≠ 0 := by
            exact_mod_cast Nat.pos_iff_ne_zero.mp hul
          exact mul_left_cancel₀ h3 h2
        rw [hc]
        congr 1
        omega
    obtain ⟨b1, a1, a2, e1, istr, ind, off, em, inl⟩ := s
    simp_all
  · split
    · next h1 h2 => omega
    · rfl

/-- `doIndent` with a negative computed count and a nonempty indent unit
panics: the cache-length test cannot succeed (a length is nonnegative, the
product is negative), so `strings.Repeat` runs with a negative count. -/
theorem doIndent_neg (s : B)
    (hneg : (s.elements.length : Int) + s.offset - 1 < 0) (hu : s.indent ≠ "") :
    doIndent s = none := by
  have hul : 0 < s.indent.length := length_pos_of_ne_empty s.indent hu
  simp only [doIndent]
  have hcond : ¬ ((s.indentString.length : Int)
      = (s.indent.length : Int) * ((s.elements.length : Int) + s.offset - 1)) := by
    intro h
    have hlt : (s.indent.length : Int)
        * ((s.elements.length : Int) + s.offset - 1) < 0 :=
      mul_neg_of_pos_of_neg (by exact_mod_cast hul) hneg
    omega
  rw [if_neg hcond, if_pos hneg]

end XB

/-- C1 counterexample: the claim fails for bindings that `Element`'s
argument filter discards.  Supplying `("a","")` as an `Element` key/value
pair, then `Attr("b","1")` and `Attr("a","2")`, yields the attribute
section ` b="1" a="2"`: the pair `("a","")` was dropped at supply time, so
`a` does NOT occupy the position of its first supply.  The claim as stated
(every supplied name exactly once, first occurrence wins position, last
occurrence wins value, over ALL supplied bindings) predicts ` a="2" b="1"`
instead. -/
theorem c1_counterexample :
    XB.attrSection
        (([XB.Binding.viaElement (.str "a") (.str ""), .viaAttr "b" (.str "1"),
            .viaAttr "a" (.str "2")].foldl XB.applyBinding XB.initB)).attrnames
        (([XB.Binding.viaElement (.str "a") (.str ""), .viaAttr "b" (.str "1"),
            .viaAttr "a" (.str "2")].foldl XB.applyBinding XB.initB)).attributes
      = " b=\x221\x22 a=\x222\x22"
    ∧ XB.claimSection [XB.Binding.viaElement (.str "a") (.str ""),
        .viaAttr "b" (.str "1"), .viaAttr "a" (.str "2")]
      = " a=\x222\x22 b=\x221\x22"
    ∧ XB.attrSection
        (([XB.Binding.viaElement (.str "a") (.str ""), .viaAttr "b" (.str "1"),
            .viaAttr "a" (.str "2")].foldl XB.applyBinding XB.initB)).attrnames
        (([XB.Binding.viaElement (.str "a") (.str ""), .viaAttr "b" (.str "1"),
            .viaAttr "a" (.str "2")].foldl XB.applyBinding XB.initB)).attributes
      ≠ XB.claimSection [XB.Binding.viaElement (.str "a") (.str ""),
          .viaAttr "b" (.str "1"), .viaAttr "a" (.str "2")] := by
  refine ⟨by decide, by decide, by decide⟩

/-- C1 amended: over the EFFECTIVE bindings — all `Attr` calls, plus the
`Element` key/value pairs that pass the argument filter (nonempty key, and
nonempty value or the `Blank` sentinel); the filtered-out pairs count
neither for position nor value — the flushed start tag contains each name
exactly once, names in order of first effective supply, each carrying the
value of its last effective supply.  `attrSection` is literally the
attribute section `outputElement` writes into the tag. -/
theorem c1_amended (bs : List XB.Binding) (s : XB.B)
    (ha : s.attributes = []) (hn : s.attrnames = []) :
    (bs.foldl XB.applyBinding s).attrnames = XB.firstOrder (XB.effective bs)
    ∧ (bs.foldl XB.applyBinding s).attrnames.Nodup
    ∧ (∀ key, (bs.foldl XB.applyBinding s).attributes.lookup key
        = XB.lastVal (XB.effective bs) key)
    ∧ XB.attrSection (bs.foldl XB.applyBinding s).attrnames
        (bs.foldl XB.applyBinding s).attributes
      = String.join ((XB.firstOrder (XB.effective bs)).map fun key =>
          " " ++ key ++ "=\x22"
            ++ attrEscape ((XB.lastVal (XB.effective bs) key).getD "") ++ "\x22") := by
  have base1 : s.attrnames = XB.firstOrder [] := by
    simp [XB.firstOrder, XB.firstOrderAux, hn]
  have base2 : ∀ key, s.attributes.lookup key = XB.lastVal [] key := by
    simp [XB.lastVal, ha, List.lookup]
  have hmain := XB.foldBindings_inv bs s [] base1 base2
  have h1 : (bs.foldl XB.applyBinding s).attrnames
      = XB.firstOrder (XB.effective bs) := by simpa using hmain.1
  have h2 : ∀ key, (bs.foldl XB.applyBinding s).attributes.lookup key
      = XB.lastVal (XB.effective bs) key := fun key => by simpa using hmain.2 key
  refine ⟨h1, ?_, h2, ?_⟩
  · rw [h1]
    exact XB.firstOrderAux_nodup [] _ List.nodup_nil
  · rw [XB.attrSection, h1]
    congr 1
    exact List.map_congr_left fun a _ => by rw [h2 a]

/-- Witness for C1's amended theorem: two `Attr` calls on the same key on
a fresh builder give one name with the second value. -/
theorem c1_amended_witness :
    ([XB.Binding.viaAttr "k" (.str "v1"), .viaAttr "k" (.str "v2")].foldl
        XB.applyBinding XB.initB).attrnames
      = XB.firstOrder (XB.effective [XB.Binding.viaAttr "k" (.str "v1"),
          .viaAttr "k" (.str "v2")])
    ∧ ([XB.Binding.viaAttr "k" (.str "v1"), .viaAttr "k" (.str "v2")].foldl
          XB.applyBinding XB.initB).attributes.lookup "k"
        = XB.lastVal (XB.effective [XB.Binding.viaAttr "k" (.str "v1"),
            .viaAttr "k" (.str "v2")]) "k" :=
  ⟨(c1_amended [XB.Binding.viaAttr "k" (.str "v1"), .viaAttr "k" (.str "v2")]
      XB.initB rfl rfl).1,
   (c1_amended [XB.Binding.viaAttr "k" (.str "v1"), .viaAttr "k" (.str "v2")]
      XB.initB rfl rfl).2.2.1 "k"⟩

/-- C5 counterexample: a negative computed indent count does NOT clamp to
zero — the operation fails.  `Offset(-1); Element("a"); Chars("x")` on a
fresh builder makes the flush of `<a>` compute
`indentValue = 1 + (-1) - 1 = -1`, and `strings.Repeat("  ", -1)` panics
(part_003 lines 509-515): the run aborts having written nothing, instead
of succeeding with zero copies of the indent unit. -/
theorem c5_counterexample :
    XB.runList [.offset (-1), .element "a" [], .chars "x"] XB.initB
      = ("", none) := by
  decide

/-- C5 amended: for every state whose cached `indentString` is a
repetition of the current indent unit (true of every state that has not
changed the unit since the cache was filled), the indentation produced by
`doIndent` equals the indent unit repeated
(open-element count − 1 + offset) times when that count is nonnegative;
when the count is negative and the indent unit is nonempty, the call does
not clamp to zero but faults (Go panic in `strings.Repeat`). -/
theorem c5_amended (s : XB.B) (k : Nat)
    (hc : s.indentString = repeatStr s.indent k) :
    (0 ≤ (s.elements.length : Int) + s.offset - 1 →
      XB.doIndent s
        = some (repeatStr s.indent ((s.elements.length : Int) + s.offset - 1).toNat,
            { s with
              indentString :=
                repeatStr s.indent ((s.elements.length : Int) + s.offset - 1).toNat }))
    ∧ ((s.elements.length : Int) + s.offset - 1 < 0 → s.indent ≠ "" →
        XB.doIndent s = none) :=
  ⟨fun hnn => XB.doIndent_spec s k hc hnn,
   fun hneg hu => XB.doIndent_neg s hneg hu⟩

/-- Witness for C5's amended theorem: one open element at offset 0 indents
zero copies; the fresh builder (no open element) faults. -/
theorem c5_amended_witness :
    XB.doIndent { XB.initB with elements := ["a"] }
      = some ("", { XB.initB with elements := ["a"] })
    ∧ XB.doIndent XB.initB = none := by
  have h1 := (c5_amended { XB.initB with elements := ["a"] } 0 rfl).1 (by decide)
  have h2 := (c5_amended XB.initB 0 rfl).2 (by decide) (by decide)
  exact ⟨by simpa using h1, h2⟩

/-- C7: `Chars(v)` escapes exactly `&` → `&amp;`, `<` → `&lt;` and
`>` → `&gt;` (every other character, the double quote included, passes
through unchanged); in the order-preserving variant (part_003 lines
473-482) an inline region (`inline > 0`) yields the bare escaped text with
no indentation or newline, while in block mode the escaped text is
indented one level deeper than the enclosing element
(`doIndent() + indent`, i.e. open-element count − 1 + offset + 1 copies of
the unit) and followed by a newline; in builder.go (lines 143-152) pretty
mode off likewise yields the bare escaped text. -/
theorem c7_chars_escaping_and_layout (line : String) (c : Char)
    (s : XB.B) (gs : GB.B) (k : Nat)
    (hb : s.buildingElement = false) (hgb : gs.buildingElement = false)
    (hc1 : c ≠ '&') (hc2 : c ≠ '<') (hc3 : c ≠ '>')
    (hcache : s.indentString = repeatStr s.indent k)
    (hp : gs.pretty = false) :
    escHtmlChar '&' = "&amp;" ∧ escHtmlChar '<' = "&lt;"
    ∧ escHtmlChar '>' = "&gt;"
    ∧ escHtmlChar c = String.singleton c
    ∧ escHtmlChar '\x22' = "\x22"
    ∧ (0 < s.inline → XB.charsStep line s = (htmlEscape line, some s))
    ∧ (s.inline = 0 → 0 ≤ (s.elements.length : Int) + s.offset - 1 →
        XB.charsStep line s
          = (repeatStr s.indent (((s.elements.length : Int) + s.offset - 1).toNat + 1)
              ++ htmlEscape line ++ "\n",
             some { s with
               indentString :=
                 repeatStr s.indent (((s.elements.length : Int) + s.offset - 1).toNat) }))
    ∧ GB.charsStep line gs = (htmlEscape line, some gs) := by
  refine ⟨rfl, rfl, rfl, ?_, rfl, ?_, ?_, ?_⟩
  · simp [escHtmlChar, hc1, hc2, hc3]
  · intro hin
    have hne : ¬ (s.inline = 0) := by omega
    simp [XB.charsStep, XB.outputElement, hb, XB.andThen_id_left, hin]
  · intro hin hnn
    have hd := XB.doIndent_spec s k hcache hnn
    simp [XB.charsStep, XB.outputElement, hb, XB.andThen_id_left, hin, hd,
      String.append_assoc]
    rw [repeatStr_succ_right]
    simp [String.append_assoc]
  · simp [GB.charsStep, GB.outputElement, hgb, hp, String.empty_append]

/-- Witness for C7 on concrete states: an inline-region state and a
pretty-off builder.go state, with the non-special character `a`. -/
theorem c7_chars_escaping_and_layout_witness :
    XB.charsStep "x<y" { XB.initB with inline := 1 }
      = (htmlEscape "x<y", some { XB.initB with inline := 1 })
    ∧ GB.charsStep "x<y" { GB.initB with pretty := false }
      = (htmlEscape "x<y", some { GB.initB with pretty := false }) :=
  ⟨(c7_chars_escaping_and_layout "x<y" 'a' { XB.initB with inline := 1 }
      { GB.initB with pretty := false } 0 rfl rfl (by decide) (by decide)
      (by decide) rfl rfl).2.2.2.2.2.1 (by decide),
   (c7_chars_escaping_and_layout "x<y" 'a' { XB.initB with inline := 1 }
      { GB.initB with pretty := false } 0 rfl rfl (by decide) (by decide)
      (by decide) rfl rfl).2.2.2.2.2.2.2⟩

namespace XB

/-- Raise the inline depth by one, leaving every other field alone. -/
def bump (s : B) : B := { s with inline := s.inline + 1 }

theorem bump_inline (s : B) : (bump s).inline = s.inline + 1 := rfl

theorem doIndent_inline (s : B) (r : String) (s' : B)
    (h : doIndent s = some (r, s')) : s'.inline = s.inline := by
  simp only [doIndent] at h
  split at h
  · simp_all
  · split at h
    · simp_all
    · simp only [Option.some.injEq, Prod.mk.injEq] at h
      cases h.2
      rfl

theorem outputElement_notBuilding (c : Bool) (s : B)
    (h : s.buildingElement = false) : outputElement c s = ("", some s) := by
  simp [outputElement, h]

theorem outputElement_inl_nil (c : Bool) (s : B) (hb : s.buildingElement = true)
    (hi : ¬ s.inline = 0) (he : s.elements = []) :
    outputElement c s = ("", none) := by
  simp [outputElement, hb, hi, he]

theorem outputElement_inl_cons (c : Bool) (s : B) (nm : String)
    (rest : List String) (hb : s.buildingElement = true) (hi : ¬ s.inline = 0)
    (he : s.elements = nm :: rest) :
    outputElement c s
      = (("" ++ "<" ++ nm ++ attrSection s.attrnames s.attributes
            ++ (if c then (if s.empty then " />" else ">") else ">")) ++ "",
         some { s with
                attributes := [], attrnames := []
                elements := if c then rest else s.elements
                buildingElement := false }) := by
  simp [outputElement, hb, hi, he]

theorem outputElement_build_none (c : Bool) (s : B)
    (hb : s.buildingElement = true)
    (hd : (if s.inline = 0 then doIndent s else some ("", s)) = none) :
    outputElement c s = ("", none) := by
  simp [outputElement, hb, hd]

theorem outputElement_build_eq (c : Bool) (s : B) (r : String) (s1 : B)
    (hb : s.buildingElement = true)
    (hd : (if s.inline = 0 then doIndent s else some ("", s)) = some (r, s1)) :
    outputElement c s
      = match s1.elements with
        | [] => ("", none)
        | name :: restElems =>
          (r ++ "<" ++ name ++ attrSection s1.attrnames s1.attributes
             ++ (if c then (if s1.empty then " />" else ">") else ">")
             ++ (if s1.inline = 0 then "\n" else ""),
           some { s1 with
                  attributes := [], attrnames := []
                  elements := if c then restElems else s1.elements
                  buildingElement := false }) := by
  simp [outputElement, hb, hd]

theorem outputElement_inline_any (c : Bool) (s : B) (o : String) (t : B)
    (h : outputElement c s = (o, some t)) : t.inline = s.inline := by
  rcases hb : s.buildingElement with _ | _
  · rw [outputElement_notBuilding c s hb] at h
    simp only [Prod.mk.injEq, Option.some.injEq] at h
    rw [← h.2]
  · rcases hd : (if s.inline = 0 then doIndent s else some ("", s)) with _ | ⟨r, s1⟩
    · rw [outputElement_build_none c s hb hd] at h
      simp at h
    · have h1 : s1.inline = s.inline := by
        split at hd
        · exact doIndent_inline s r s1 hd
        · simp only [Option.some.injEq, Prod.mk.injEq] at hd
          rw [← hd.2]
      rw [outputElement_build_eq c s r s1 hb hd] at h
      rcases hel : s1.elements with _ | ⟨nm, rest⟩
      · rw [hel] at h
        simp at h
      · rw [hel] at h
        simp only [Prod.mk.injEq, Option.some.injEq] at h
        rw [← h.2]
        exact h1

theorem outputElement_inline (c : Bool) (s : B) (o : String) (t : B)
    (hin : 1 ≤ s.inline) (h : outputElement c s = (o, some t)) :
    t.inline = s.inline := by
  have hi : ¬ s.inline = 0 := by omega
  rcases hb : s.buildingElement with _ | _
  · rw [outputElement_notBuilding c s hb] at h
    simp only [Prod.mk.injEq, Option.some.injEq] at h
    rw [← h.2]
  · rcases he : s.elements with _ | ⟨nm, rest⟩
    · rw [outputElement_inl_nil c s hb hi he] at h
      simp at h
    · rw [outputElement_inl_cons c s nm rest hb hi he] at h
      simp only [Prod.mk.injEq, Option.some.injEq] at h
      rw [← h.2]

theorem outputElement_bump (c : Bool) (s : B) (h : 1 ≤ s.inline) :
    outputElement c (bump s)
      = ((outputElement c s).1, Option.map bump (outputElement c s).2) := by
  have hi : ¬ s.inline = 0 := by omega
  have hib : ¬ (bump s).inline = 0 := by simp only [bump]; omega
  rcases hb : s.buildingElement with _ | _
  · rw [outputElement_notBuilding c s hb,
      outputElement_notBuilding c (bump s) (by simpa [bump] using hb)]
    rfl
  · rcases he : s.elements with _ | ⟨nm, rest⟩
    · rw [outputElement_inl_nil c s hb hi he,
        outputElement_inl_nil c (bump s) (by simpa [bump] using hb) hib
          (by simpa [bump] using he)]
      rfl
    · rw [outputElement_inl_cons c s nm rest hb hi he,
        outputElement_inl_cons c (bump s) nm rest (by simpa [bump] using hb) hib
          (by simpa [bump] using he)]
      simp [bump]

theorem attrStep_bump (a v : String) (s : B) :
    attrStep a v (bump s) = bump (attrStep a v s) := by
  simp [attrStep, bump]

theorem attrStep_inline (a v : String) (s : B) :
    (attrStep a v s).inline = s.inline := rfl

theorem applyBinding_bump (s : B) (b : Binding) :
    applyBinding (bump s) b = bump (applyBinding s b) := by
  cases b with
  | viaElement k v =>
    simp only [applyBinding]
    split <;> simp [attrStep_bump]
  | viaAttr k v => exact attrStep_bump k v.toStr s

theorem applyBinding_inline (s : B) (b : Binding) :
    (applyBinding s b).inline = s.inline := by
  cases b with
  | viaElement k v =>
    simp only [applyBinding]
    split <;> rfl
  | viaAttr k v => rfl

theorem applyPairs_bump (l : List AttrVal) (s : B) :
    applyPairs l (bump s) = bump (applyPairs l s) := by
  induction l, s using applyPairs.induct with
  | case1 k v rest s0 ih => simp [applyPairs, applyBinding_bump, ih]
  | case2 l0 s0 h =>
    cases l0 with
    | nil => simp [applyPairs]
    | cons a t =>
      cases t with
      | nil => simp [applyPairs]
      | cons a2 t2 => exact absurd rfl (h a a2 t2)

theorem applyPairs_inline (l : List AttrVal) (s : B) :
    (applyPairs l s).inline = s.inline := by
  induction l, s using applyPairs.induct with
  | case1 k v rest s0 ih => simp [applyPairs, ih, applyBinding_inline]
  | case2 l0 s0 h =>
    cases l0 with
    | nil => simp [applyPairs]
    | cons a t =>
      cases t with
      | nil => simp [applyPairs]
      | cons a2 t2 => exact absurd rfl (h a a2 t2)

theorem charsStep_bump (line : String) (s : B) (h : 1 ≤ s.inline) :
    charsStep line (bump s)
      = ((charsStep line s).1, Option.map bump (charsStep line s).2) := by
  have hob := outputElement_bump false s h
  rcases ho : outputElement false s with ⟨o, r⟩
  rw [ho] at hob
  cases r with
  | none => simp [charsStep, andThen, ho, hob]
  | some t =>
    have ht : t.inline = s.inline := outputElement_inline false s o t h ho
    have ht1 : 0 < t.inline := by omega
    have htb : 0 < (bump t).inline := by simp [bump]; omega
    simp [charsStep, andThen, ho, hob, ht1, htb]

theorem charsStep_inline (line : String) (s : B) (o : String) (t : B)
    (h : 1 ≤ s.inline) (hc : charsStep line s = (o, some t)) :
    t.inline = s.inline := by
  rcases ho : outputElement false s with ⟨o1, r⟩
  cases r with
  | none => simp [charsStep, andThen, ho] at hc
  | some u =>
    have hu : u.inline = s.inline := outputElement_inline false s o1 u h ho
    have hu1 : 0 < u.inline := by omega
    simp [charsStep, andThen, ho, hu1] at hc
    rw [← hc.2, hu]

theorem charsNoEscapeStep_bump (line : String) (s : B) (h : 1 ≤ s.inline) :
    charsNoEscapeStep line (bump s)
      = ((charsNoEscapeStep line s).1, Option.map bump (charsNoEscapeStep line s).2) := by
  have hob := outputElement_bump false s h
  rcases ho : outputElement false s with ⟨o, r⟩
  rw [ho] at hob
  cases r with
  | none => simp [charsNoEscapeStep, andThen, ho, hob]
  | some t =>
    have ht : t.inline = s.inline := outputElement_inline false s o t h ho
    have ht1 : 0 < t.inline := by omega
    have htb : 0 < (bump t).inline := by simp [bump]; omega
    simp [charsNoEscapeStep, andThen, ho, hob, ht1, htb]

theorem charsNoEscapeStep_inline (line : String) (s : B) (o : String) (t : B)
    (h : 1 ≤ s.inline) (hc : charsNoEscapeStep line s = (o, some t)) :
    t.inline = s.inline := by
  rcases ho : outputElement false s with ⟨o1, r⟩
  cases r with
  | none => simp [charsNoEscapeStep, andThen, ho] at hc
  | some u =>
    have hu : u.inline = s.inline := outputElement_inline false s o1 u h ho
    have hu1 : 0 < u.inline := by omega
    simp [charsNoEscapeStep, andThen, ho, hu1] at hc
    rw [← hc.2, hu]

theorem cdataStep_bump (line : String) (s : B) (h : 1 ≤ s.inline) :
    cdataStep line (bump s)
      = ((cdataStep line s).1, Option.map bump (cdataStep line s).2) := by
  have hob := outputElement_bump false s h
  rcases ho : outputElement false s with ⟨o, r⟩
  rw [ho] at hob
  cases r with
  | none => simp [cdataStep, andThen, ho, hob]
  | some t =>
    have ht : t.inline = s.inline := outputElement_inline false s o t h ho
    have ht1 : 0 < t.inline := by omega
    have htb : 0 < (bump t).inline := by simp [bump]; omega
    simp [cdataStep, andThen, ho, hob, ht1, htb]

theorem cdataStep_inline (line : String) (s : B) (o : String) (t : B)
    (h : 1 ≤ s.inline) (hc : cdataStep line s = (o, some t)) :
    t.inline = s.inline := by
  rcases ho : outputElement false s with ⟨o1, r⟩
  cases r with
  | none => simp [cdataStep, andThen, ho] at hc
  | some u =>
    have hu : u.inline = s.inline := outputElement_inline false s o1 u h ho
    have hu1 : 0 < u.inline := by omega
    simp [cdataStep, andThen, ho, hu1] at hc
    rw [← hc.2, hu]

theorem endStep_bump (s : B) (h : 1 ≤ s.inline) :
    endStep (bump s)
      = ((endStep s).1, Option.map bump (endStep s).2) := by
  rcases hb : s.buildingElement with _ | _
  · have h1 : 0 < s.inline := by omega
    have h2 : 0 < (bump s).inline := by simp [bump]; omega
    rcases he : s.elements with _ | ⟨nm, rest⟩ <;>
      simp [endStep, bump, hb, h1, h2, he] <;> omega
  · simp only [endStep, bump_inline]
    rw [show (bump s).buildingElement = true from hb]
    rw [hb]
    exact outputElement_bump true s h

theorem endStep_inline_eq (s : B) (o : String) (t : B) (h : 1 ≤ s.inline)
    (he : endStep s = (o, some t)) : t.inline = s.inline := by
  rcases hb : s.buildingElement with _ | _
  · have h1 : 0 < s.inline := by omega
    rcases hel : s.elements with _ | ⟨nm, rest⟩ <;>
      simp [endStep, hb, h1, hel] at he
    rw [← he.2]
  · simp only [endStep, hb, if_pos rfl] at he
    exact outputElement_inline true s o t h he

theorem elementStep_bump (n : String) (args : List AttrVal) (s : B)
    (h : 1 ≤ s.inline) :
    elementStep n args (bump s)
      = ((elementStep n args s).1, Option.map bump (elementStep n args s).2) := by
  have hpush : ∀ u : B,
      ({ bump u with buildingElement := true, elements := n :: (bump u).elements })
        = bump { u with buildingElement := true, elements := n :: u.elements } := by
    intro u
    simp [bump]
  rcases hb : s.buildingElement with _ | _
  · have e1 : (if (bump s).buildingElement = true then outputElement false (bump s)
        else ("", some (bump s))) = ("", some (bump s)) := by
      have hbb : (bump s).buildingElement = false := hb
      simp [hbb]
    have e2 : (if s.buildingElement = true then outputElement false s
        else ("", some s)) = ("", some s) := by simp [hb]
    simp only [elementStep, e1, e2, andThen_id_left]
    by_cases hpar : args.length % 2 = 1
    · rw [if_pos hpar, if_pos hpar, hpush s, applyPairs_bump]
      have hx : 1 ≤ (applyPairs (args.drop 1)
          { s with buildingElement := true, elements := n :: s.elements }).inline := by
        rw [applyPairs_inline]
        simpa using h
      exact charsStep_bump _ _ hx
    · rw [if_neg hpar, if_neg hpar, hpush s, applyPairs_bump]
      rfl
  · have e1 : (if (bump s).buildingElement = true then outputElement false (bump s)
        else ("", some (bump s))) = outputElement false (bump s) := by
      have hbb : (bump s).buildingElement = true := hb
      simp [hbb]
    have e2 : (if s.buildingElement = true then outputElement false s
        else ("", some s)) = outputElement false s := by simp [hb]
    simp only [elementStep, e1, e2]
    rw [outputElement_bump false s h]
    rcases ho : outputElement false s with ⟨o, r⟩
    cases r with
    | none => simp [andThen]
    | some t =>
      have ht : t.inline = s.inline := outputElement_inline false s o t h ho
      simp only [andThen, Option.map]
      by_cases hpar : args.length % 2 = 1
      · rw [if_pos hpar, if_pos hpar, hpush t, applyPairs_bump]
        have hx : 1 ≤ (applyPairs (args.drop 1)
            { t with buildingElement := true, elements := n :: t.elements }).inline := by
          rw [applyPairs_inline]
          simp only []
          omega
        rw [charsStep_bump _ _ hx]
        rfl
      · rw [if_neg hpar, if_neg hpar, hpush t, applyPairs_bump]

theorem elementStep_inline_eq (n : String) (args : List AttrVal) (s : B)
    (o : String) (t : B) (h : 1 ≤ s.inline)
    (he : elementStep n args s = (o, some t)) : t.inline = s.inline := by
  rcases hb : s.buildingElement with _ | _
  · have e2 : (if s.buildingElement = true then outputElement false s
        else ("", some s)) = ("", some s) := by simp [hb]
    rw [elementStep, e2, andThen_id_left] at he
    by_cases hpar : args.length % 2 = 1
    · rw [if_pos hpar] at he
      have hx : 1 ≤ (applyPairs (args.drop 1)
          { s with buildingElement := true, elements := n :: s.elements }).inline := by
        rw [applyPairs_inline]
        simpa using h
      have hw := charsStep_inline _ _ _ _ hx he
      rw [applyPairs_inline] at hw
      rw [hw]
    · rw [if_neg hpar] at he
      simp only [Prod.mk.injEq, Option.some.injEq] at he
      rw [← he.2, applyPairs_inline]
  · have e2 : (if s.buildingElement = true then outputElement false s
        else ("", some s)) = outputElement false s := by simp [hb]
    rw [elementStep, e2] at he
    rcases ho : outputElement false s with ⟨o1, r⟩
    rw [ho] at he
    cases r with
    | none => simp [andThen] at he
    | some u =>
      have hu : u.inline = s.inline := outputElement_inline false s o1 u h ho
      simp only [andThen] at he
      by_cases hpar : args.length % 2 = 1
      · rw [if_pos hpar] at he
        have hx : 1 ≤ (applyPairs (args.drop 1)
            { u with buildingElement := true, elements := n :: u.elements }).inline := by
          rw [applyPairs_inline]
          simp only []
          omega
        rcases hcs : charsStep ((args.headD (.str "")).toStr)
            (applyPairs (args.drop 1)
              { u with buildingElement := true, elements := n :: u.elements })
          with ⟨o2, r2⟩
        rw [hcs] at he
        cases r2 with
        | none => simp at he
        | some w =>
          have hw := charsStep_inline _ _ _ _ hx hcs
          rw [applyPairs_inline] at hw
          simp only [Prod.mk.injEq, Option.some.injEq] at he
          rw [← he.2, hw]
          simp only []
          omega
      · rw [if_neg hpar] at he
        simp only [Prod.mk.injEq, Option.some.injEq] at he
        rw [← he.2, applyPairs_inline]
        simp only []
        omega

theorem inlineStep_pos (s : B) (h : ¬ s.inline = 0) :
    inlineStep s = ("", some (bump s)) := by
  simp [inlineStep, h, bump]

theorem inlineStep_inline (s : B) (o : String) (t : B)
    (h : inlineStep s = (o, some t)) : t.inline = s.inline + 1 := by
  by_cases hz : s.inline = 0
  · rw [inlineStep, if_pos hz] at h
    rcases ho : outputElement false s with ⟨o1, r⟩
    rw [ho] at h
    cases r with
    | none => simp [andThen] at h
    | some u =>
      have hu : u.inline = s.inline := outputElement_inline_any false s o1 u ho
      simp only [andThen] at h
      rcases hd2 : doIndent { u with offset := u.offset + 1 } with _ | ⟨r2, s2⟩
      · rw [hd2] at h
        simp at h
      · have h2 := doIndent_inline _ r2 s2 hd2
        rw [hd2] at h
        simp only [Prod.mk.injEq, Option.some.injEq] at h
        rw [← h.2]
        simp only []
        rw [h2]
        simp [hu]
  · rw [inlineStep_pos s hz] at h
    simp only [Prod.mk.injEq, Option.some.injEq] at h
    rw [← h.2]
    rfl

theorem endInlineStep_inline (s : B) (o : String) (t : B)
    (h : endInlineStep s = (o, some t)) : t.inline = s.inline - 1 := by
  simp only [endInlineStep] at h
  split at h <;>
    (simp only [Prod.mk.injEq, Option.some.injEq] at h; rw [← h.2])

theorem endInlineStep_bump (s : B) (h : 2 ≤ s.inline) :
    endInlineStep (bump s)
      = ((endInlineStep s).1, Option.map bump (endInlineStep s).2) := by
  have h1 : ¬ ((bump s).inline - 1 = 0) := by simp [bump]; omega
  have h2 : ¬ (s.inline - 1 = 0) := by omega
  simp only [endInlineStep, bump_inline, h1, h2, if_neg]
  simp [bump]
  omega

theorem tagStep_bump (n : String) (args : List AttrVal) (s : B)
    (h : 1 ≤ s.inline) :
    tagStep n args (bump s)
      = ((tagStep n args s).1, Option.map bump (tagStep n args s).2) := by
  have hz : ¬ s.inline = 0 := by omega
  have hzb : ¬ (bump s).inline = 0 := by simp [bump]; omega
  rw [tagStep, tagStep, inlineStep_pos s hz, inlineStep_pos (bump s) hzb]
  rw [andThen_id_left, andThen_id_left]
  have hb1 : 1 ≤ (bump s).inline := by simp [bump]; omega
  rw [elementStep_bump n args (bump s) hb1]
  rcases he : elementStep n args (bump s) with ⟨o, r⟩
  cases r with
  | none => simp [andThen]
  | some t =>
    have ht : t.inline = (bump s).inline := elementStep_inline_eq n args (bump s) o t hb1 he
    have ht2 : 2 ≤ t.inline := by rw [ht]; simp [bump]; omega
    have ht1 : 1 ≤ t.inline := by omega
    simp only [andThen, Option.map]
    rw [endStep_bump t ht1]
    rcases hend : endStep t with ⟨o2, r2⟩
    cases r2 with
    | none => simp
    | some w =>
      have hw : w.inline = t.inline := endStep_inline_eq t o2 w ht1 hend
      have hw2 : 2 ≤ w.inline := by omega
      simp only [Option.map]
      rw [endInlineStep_bump w hw2]
      rcases hei : endInlineStep w with ⟨o3, r3⟩
      cases r3 <;> simp

theorem tagStep_inline_eq (n : String) (args : List AttrVal) (s : B)
    (o : String) (t : B) (h : 1 ≤ s.inline)
    (he : tagStep n args s = (o, some t)) : t.inline = s.inline := by
  have hz : ¬ s.inline = 0 := by omega
  rw [tagStep, inlineStep_pos s hz, andThen_id_left] at he
  have hb1 : 1 ≤ (bump s).inline := by simp [bump]; omega
  rcases h1 : elementStep n args (bump s) with ⟨o1, r1⟩
  rw [h1] at he
  cases r1 with
  | none => simp [andThen] at he
  | some u =>
    have hu : u.inline = (bump s).inline := elementStep_inline_eq n args (bump s) o1 u hb1 h1
    have hu1 : 1 ≤ u.inline := by omega
    simp only [andThen] at he
    rcases h2 : endStep u with ⟨o2, r2⟩
    rw [h2] at he
    cases r2 with
    | none => simp at he
    | some w =>
      have hw : w.inline = u.inline := endStep_inline_eq u o2 w hu1 h2
      dsimp only at he
      rcases h3 : endInlineStep w with ⟨o3, r3⟩
      rw [h3] at he
      cases r3 with
      | none => simp at he
      | some x =>
        have hx : x.inline = w.inline - 1 := endInlineStep_inline w o3 x h3
        simp only [Prod.mk.injEq, Option.some.injEq] at he
        rw [← he.2, hx, hw, hu]
        simp [bump]

theorem endInline_bump_cancel (t : B) (h : 1 ≤ t.inline) :
    endInlineStep (bump t) = ("", some t) := by
  have hz : ¬ ((bump t).inline - 1 = 0) := by simp [bump]; omega
  simp [endInlineStep, bump, hz]
  omega

theorem step_bump (c : Cmd) (hc : c.isInlineCmd = false) (s : B)
    (h : 1 ≤ s.inline) :
    step c (bump s) = ((step c s).1, Option.map bump (step c s).2) := by
  cases c with
  | element n a => exact elementStep_bump n a s h
  | attr n v => simp [step, attrOp, applyBinding_bump]
  | endEl => exact endStep_bump s h
  | tag n a => exact tagStep_bump n a s h
  | chars l => exact charsStep_bump l s h
  | charsNoEscape l => exact charsNoEscapeStep_bump l s h
  | cdata l => exact cdataStep_bump l s h
  | instruct n a =>
    rcases hp : instrPairs a with ⟨p, ok⟩
    cases ok <;> simp [step, instructStep, hp]
  | doctype d => rfl
  | offset d => simp [step, offsetSet, bump]
  | indent u => simp [step, indentSet, bump]
  | empty e => simp [step, emptySet, bump]
  | flush => exact outputElement_bump false s h
  | inl => simp [Cmd.isInlineCmd] at hc
  | endInl => simp [Cmd.isInlineCmd] at hc

theorem step_inline_eq (c : Cmd) (hc : c.isInlineCmd = false) (s : B)
    (o : String) (t : B) (h : 1 ≤ s.inline) (he : step c s = (o, some t)) :
    t.inline = s.inline := by
  cases c with
  | element n a => exact elementStep_inline_eq n a s o t h he
  | attr n v =>
    simp only [step, attrOp, Prod.mk.injEq, Option.some.injEq] at he
    rw [← he.2, applyBinding_inline]
  | endEl => exact endStep_inline_eq s o t h he
  | tag n a => exact tagStep_inline_eq n a s o t h he
  | chars l => exact charsStep_inline l s o t h he
  | charsNoEscape l => exact charsNoEscapeStep_inline l s o t h he
  | cdata l => exact cdataStep_inline l s o t h he
  | instruct n a =>
    rcases hp : instrPairs a with ⟨p, ok⟩
    cases ok <;> simp [step, instructStep, hp] at he
    rw [← he.2]
  | doctype d =>
    simp only [step, doctypeStep, Prod.mk.injEq, Option.some.injEq] at he
    rw [← he.2]
  | offset d =>
    simp only [step, Prod.mk.injEq, Option.some.injEq] at he
    rw [← he.2]
    rfl
  | indent u =>
    simp only [step, Prod.mk.injEq, Option.some.injEq] at he
    rw [← he.2]
    rfl
  | empty e =>
    simp only [step, Prod.mk.injEq, Option.some.injEq] at he
    rw [← he.2]
    rfl
  | flush => exact outputElement_inline_any false s o t he
  | inl => simp [Cmd.isInlineCmd] at hc
  | endInl => simp [Cmd.isInlineCmd] at hc

theorem runList_append (L1 L2 : List Cmd) (s : B) :
    runList (L1 ++ L2) s = andThen (runList L1 s) (runList L2) := by
  induction L1 generalizing s with
  | nil =>
    simp only [List.nil_append, runList]
    exact (andThen_id_left s (runList L2)).symm
  | cons c rest ih =>
    simp only [List.cons_append, runList]
    rw [andThen_assoc]
    congr 1
    funext u
    exact ih u

theorem runList_inline_eq (S : List Cmd) :
    ∀ (_hS : ∀ c ∈ S, c.isInlineCmd = false) (s : B) (o : String) (t : B),
    runList S s = (o, some t) → 1 ≤ s.inline → t.inline = s.inline := by
  induction S with
  | nil =>
    intro _hS s o t h hin
    simp only [runList, Prod.mk.injEq, Option.some.injEq] at h
    rw [← h.2]
  | cons c rest ih =>
    intro hS s o t h hin
    have hc : c.isInlineCmd = false := hS c (List.mem_cons_self c rest)
    rcases hstep : step c s with ⟨o1, r1⟩
    rw [runList, hstep] at h
    cases r1 with
    | none => simp [andThen] at h
    | some u =>
      have hu : u.inline = s.inline := step_inline_eq c hc s o1 u hin hstep
      simp only [andThen] at h
      rcases hr : runList rest u with ⟨o2, r2⟩
      rw [hr] at h
      cases r2 with
      | none => simp at h
      | some w =>
        have hw := ih (fun c2 hc2 => hS c2 (List.mem_cons_of_mem c hc2)) u o2 w hr
          (by omega)
        simp only [Prod.mk.injEq, Option.some.injEq] at h
        rw [← h.2, hw, hu]

theorem runList_bump (S : List Cmd) :
    ∀ (_hS : ∀ c ∈ S, c.isInlineCmd = false) (s : B), 1 ≤ s.inline →
    runList S (bump s) = ((runList S s).1, Option.map bump (runList S s).2) := by
  induction S with
  | nil =>
    intro _hS s h
    rfl
  | cons c rest ih =>
    intro hS s h
    have hc : c.isInlineCmd = false := hS c (List.mem_cons_self c rest)
    rw [runList, runList, step_bump c hc s h]
    rcases hstep : step c s with ⟨o1, r1⟩
    cases r1 with
    | none => simp [andThen]
    | some u =>
      have hu : u.inline = s.inline := step_inline_eq c hc s o1 u h hstep
      simp only [andThen, Option.map]
      rw [ih (fun c2 hc2 => hS c2 (List.mem_cons_of_mem c hc2)) u (by omega)]
      rcases (runList rest u).2 with _ | _ <;> rfl

end XB

/-- C3 counterexample: from a builder state with a NEGATIVE inline depth —
reachable by one unmatched `EndInline()` on a fresh builder, a
contract-violating but possible call — entering twice and leaving twice is
not equivalent to entering once and leaving once.  With
`S = [Element "a"]`: the double-enter run writes `"\n"` (the second
`Inline()` starts from depth 0 and the first `EndInline()` closes the
line), the single-enter run writes nothing; and after two enters and one
leave the depth is back to 0, so block formatting HAS resumed. -/
theorem c3_counterexample :
    XB.endInlineStep XB.initB = ("", some { XB.initB with inline := -1 })
    ∧ (XB.runList [.inl, .inl, .element "a" [], .endInl, .endInl]
        { XB.initB with inline := -1 }).1 = "\n"
    ∧ (XB.runList [.inl, .element "a" [], .endInl]
        { XB.initB with inline := -1 }).1 = ""
    ∧ (XB.runList [.inl, .inl, .element "a" [], .endInl, .endInl]
        { XB.initB with inline := -1 }).1
      ≠ (XB.runList [.inl, .element "a" [], .endInl]
          { XB.initB with inline := -1 }).1
    ∧ (XB.runList [.inl, .inl, .element "a" [], .endInl]
        { XB.initB with inline := -1 }).2
      = some { XB.initB with buildingElement := true, elements := ["a"], inline := 0 } := by
  refine ⟨by decide, by decide, by decide, by decide, by decide⟩

/-- C3 amended: for every builder state whose inline depth is nonnegative
(every state not inside an unmatched `EndInline`), and every sequence `S`
of modelled calls that contains no bare `Inline`/`EndInline` (balanced
`Tag` composites are allowed), the bytes written by
`Inline(); Inline(); S; EndInline(); EndInline()` equal the bytes written
by `Inline(); S; EndInline()`; and whenever
`Inline(); Inline(); S; EndInline()` completes, the resulting inline depth
is still positive — block formatting has not resumed. -/
theorem c3_amended (s : XB.B) (S : List XB.Cmd)
    (hs : 0 ≤ s.inline) (hS : ∀ c ∈ S, c.isInlineCmd = false) :
    (XB.runList ([.inl, .inl] ++ S ++ [.endInl, .endInl]) s).1
      = (XB.runList ([.inl] ++ S ++ [.endInl]) s).1
    ∧ (∀ t, (XB.runList ([.inl, .inl] ++ S ++ [.endInl]) s).2 = some t →
        0 < t.inline) := by
  have l1 : ([XB.Cmd.inl, XB.Cmd.inl] ++ S ++ [XB.Cmd.endInl, XB.Cmd.endInl]
        : List XB.Cmd)
      = XB.Cmd.inl :: (XB.Cmd.inl :: (S ++ [XB.Cmd.endInl, XB.Cmd.endInl])) := rfl
  have l2 : ([XB.Cmd.inl] ++ S ++ [XB.Cmd.endInl] : List XB.Cmd)
      = XB.Cmd.inl :: (S ++ [XB.Cmd.endInl]) := rfl
  have l3 : ([XB.Cmd.inl, XB.Cmd.inl] ++ S ++ [XB.Cmd.endInl] : List XB.Cmd)
      = XB.Cmd.inl :: (XB.Cmd.inl :: (S ++ [XB.Cmd.endInl])) := rfl
  have rc : ∀ (c : XB.Cmd) (cs : List XB.Cmd) (x : XB.B),
      XB.runList (c :: cs) x = XB.andThen (XB.step c x) (XB.runList cs) :=
    fun c cs x => rfl
  rcases hi : XB.inlineStep s with ⟨o, r⟩
  cases r with
  | none =>
    constructor
    · rw [l1, l2, rc, rc]
      simp only [XB.step]
      rw [hi]
      rfl
    · intro t ht
      rw [l3, rc] at ht
      simp only [XB.step] at ht
      rw [hi] at ht
      simp [XB.andThen] at ht
  | some s1 =>
    have hs1 : s1.inline = s.inline + 1 := XB.inlineStep_inline s o s1 hi
    have hs1p : 1 ≤ s1.inline := by omega
    have hz1 : ¬ s1.inline = 0 := by omega
    have eA : ∀ X : List XB.Cmd,
        XB.runList (XB.Cmd.inl :: X) s1 = XB.runList X (XB.bump s1) := by
      intro X
      rw [rc]
      simp only [XB.step]
      rw [XB.inlineStep_pos s1 hz1]
      exact XB.andThen_id_left (XB.bump s1) (XB.runList X)
    rcases hrS : XB.runList S s1 with ⟨oS, rS⟩
    have hbump := XB.runList_bump S hS s1 hs1p
    rw [hrS] at hbump
    cases rS with
    | none =>
      constructor
      · rw [l1, l2, rc, rc]
        simp only [XB.step]
        rw [hi]
        simp only [XB.andThen]
        rw [eA (S ++ [XB.Cmd.endInl, XB.Cmd.endInl]),
          XB.runList_append S [XB.Cmd.endInl, XB.Cmd.endInl] (XB.bump s1), hbump,
          XB.runList_append S [XB.Cmd.endInl] s1, hrS]
        simp [XB.andThen]
      · intro t ht
        rw [l3, rc] at ht
        simp only [XB.step] at ht
        rw [hi] at ht
        simp only [XB.andThen] at ht
        rw [eA (S ++ [XB.Cmd.endInl]),
          XB.runList_append S [XB.Cmd.endInl] (XB.bump s1), hbump] at ht
        simp [XB.andThen] at ht
    | some t0 =>
      have ht0 : t0.inline = s1.inline :=
        XB.runList_inline_eq S hS s1 oS t0 hrS hs1p
      have ht0p : 1 ≤ t0.inline := by omega
      have hcancel := XB.endInline_bump_cancel t0 ht0p
      have e3 : XB.runList [XB.Cmd.endInl, XB.Cmd.endInl] (XB.bump t0)
          = XB.runList [XB.Cmd.endInl] t0 := by
        rw [rc]
        simp only [XB.step]
        rw [hcancel]
        exact XB.andThen_id_left t0 (XB.runList [XB.Cmd.endInl])
      constructor
      · rw [l1, l2, rc, rc]
        simp only [XB.step]
        rw [hi]
        simp only [XB.andThen]
        rw [eA (S ++ [XB.Cmd.endInl, XB.Cmd.endInl]),
          XB.runList_append S [XB.Cmd.endInl, XB.Cmd.endInl] (XB.bump s1), hbump,
          XB.runList_append S [XB.Cmd.endInl] s1, hrS]
        simp only [XB.andThen, Option.map]
        rw [e3]
      · intro t ht
        rw [l3, rc] at ht
        simp only [XB.step] at ht
        rw [hi] at ht
        simp only [XB.andThen] at ht
        rw [eA (S ++ [XB.Cmd.endInl]),
          XB.runList_append S [XB.Cmd.endInl] (XB.bump s1), hbump] at ht
        simp only [XB.andThen, Option.map] at ht
        have e4 : XB.runList [XB.Cmd.endInl] (XB.bump t0) = ("", some t0) := by
          rw [rc]
          simp only [XB.step]
          rw [hcancel]
          rfl
        rw [e4] at ht
        simp only [Option.some.injEq] at ht
        rw [← ht]
        omega

/-- Witness for C3's amended theorem on a fresh builder with
`S = [Element "a"]`. -/
theorem c3_amended_witness :
    (XB.runList ([.inl, .inl] ++ [XB.Cmd.element "a" []] ++ [.endInl, .endInl])
        XB.initB).1
      = (XB.runList ([.inl] ++ [XB.Cmd.element "a" []] ++ [.endInl]) XB.initB).1 :=
  (c3_amended XB.initB [XB.Cmd.element "a" []] (by decide)
    (by intro c hc; simp at hc; rw [hc]; rfl)).1

/-- Witness for C10 at concrete attributes. -/
theorem c10_empty_attribute_filter_witness :
    GB.attrLoop [("", "x")] = GB.attrLoop []
    ∧ XB.applyBinding XB.initB (.viaElement (.str "a") .blank)
      = XB.attrStep "a" "" XB.initB
    ∧ XB.attrSection ["a"] [("a", "")] = " a=\x22\x22" :=
  ⟨(c10_empty_attribute_filter "a" "v" XB.initB (by decide)).1 "" "x" []
      (Or.inl rfl),
   (c10_empty_attribute_filter "a" "v" XB.initB (by decide)).2.1,
   (c10_empty_attribute_filter "a" "v" XB.initB (by decide)).2.2.2.2⟩
